import Mathlib

/-!
Verification of the dependency-driven memoizing evaluator in
`src/library/dynamic.rs` (function `execute`, trait `SubtaskStore`, the
`Subtasker` accessor with `precheck` and `solve`, and the `TaskInterrupt`
signal type).

The evaluator is embedded shallowly: the store is a function from goals to
optional solutions, a task is a function from goal, store and resumable
state to a `Result` together with the post-call state (the Rust task
mutates its state through a mutable reference), and the driver loop of
`execute` becomes a fuel-indexed iteration of an explicit step function.
The step function also emits instrumentation events (task invocations and
store writes) so that counting properties of a run can be stated.
-/

namespace DynLib

variable {K V E S : Type}

/-- A memo store, as in the Rust `SubtaskStore` trait: a mapping from goals
to solutions, accessed through `add`, `get` and `contains`. -/
def Store (K V : Type) : Type := K → Option V

/-- The store with no solutions. -/
def Store.empty (K V : Type) : Store K V := fun _ => none

/-- Fetch a known solution for a goal, if present (`SubtaskStore::get`). -/
def Store.get (s : Store K V) (g : K) : Option V := s g

/-- Check if a goal has a known solution (`SubtaskStore::contains`). -/
def Store.contains (s : Store K V) (g : K) : Bool := (s g).isSome

/-- Insert a solution for a goal (`SubtaskStore::add`); a later insertion
for the same goal wins, as with `HashMap::insert`. -/
def Store.add [DecidableEq K] (s : Store K V) (g : K) (v : V) : Store K V :=
  fun g2 => if g2 = g then some v else s g2

/-- The `Dependency` token of the Rust module: a requested goal. Its field
is private in Rust; outside the module a value of this type can only be
obtained from `Subtasker::solve` or `Subtasker::precheck`. -/
structure Dependency (K : Type) where
  key : K

/-- The `TaskInterrupt` enum: a dependency request, a domain error, or a
tail redirect. `Tail` is a public constructor taking an arbitrary goal. -/
inductive TaskInterrupt (K E : Type) where
  | dependency : Dependency K → TaskInterrupt K E
  | error : E → TaskInterrupt K E
  | tail : K → TaskInterrupt K E

/-- The `DynamicError` enum returned by `execute`. -/
inductive DynamicError (K E : Type) where
  | circularDependency : K → DynamicError K E
  | error : E → DynamicError K E

/-- A task strategy (the Rust `Task` trait). `solve` receives the goal, a
read-only view of the store (the Rust task reads it through the
`Subtask` accessor) and the current resumable state, and returns the
`Result` of the call together with the state as left by the call (the Rust
signature mutates the state through `&mut Option<State>`). -/
structure Task (K V E S : Type) where
  solve : K → Store K V → Option S → Except (TaskInterrupt K E) V × Option S

/-- `Subtasker::solve`: return the stored solution, or a `Dependency`
token carrying the missing goal. -/
def subtaskerSolve (store : Store K V) (g : K) : Except (Dependency K) V :=
  match store g with
  | some v => .ok v
  | none => .error ⟨g⟩

/-- `Subtasker::precheck`: scan the goals in order and fail on the first
one not contained in the store (`try_for_each` over the iterator). -/
def precheck (store : Store K V) : List K → Except (Dependency K) Unit
  | [] => .ok ()
  | g :: gs =>
    match Store.contains store g with
    | true => precheck store gs
    | false => .error ⟨g⟩

/-- The goals actually queried against the store by `precheck`, in order:
`try_for_each` short-circuits, so nothing after the first miss is
touched. -/
def precheckQueried (store : Store K V) : List K → List K
  | [] => []
  | g :: gs =>
    match Store.contains store g with
    | true => g :: precheckQueried store gs
    | false => [g]

/-- The `TaskInterrupt` values obtainable by task code outside the Rust
module, for a given store: `Error` and `Tail` have public constructors
with arbitrary payloads, while a `Dependency` value (private fields) can
only come out of `Subtasker::solve` or `Subtasker::precheck` against the
current store. -/
inductive Producible (store : Store K V) : TaskInterrupt K E → Prop
  | ofError (e : E) : Producible store (.error e)
  | ofTail (g : K) : Producible store (.tail g)
  | ofSolve (g : K) (d : Dependency K) :
      subtaskerSolve store g = .error d → Producible store (.dependency d)
  | ofPrecheck (gs : List K) (d : Dependency K) :
      precheck store gs = .error d → Producible store (.dependency d)

/-- The mutable state of the driver loop in `execute`: the current goal,
its resumable state, and the dependency stack of suspended
`(goal, state)` frames (head of the list = top of the stack). -/
structure ExecState (K S : Type) where
  current : K
  state : Option S
  stack : List (K × Option S)

/-- The goals held on the dependency stack. -/
def stackGoals (st : ExecState K S) : List K := st.stack.map Prod.fst

/-- The structural invariant of the driver: the current goal and the
stacked goals are pairwise distinct. -/
def StackInv (st : ExecState K S) : Prop := (st.current :: stackGoals st).Nodup

/-- Instrumentation events of a run: a task invocation (goal, state passed
in, result, state left behind) or a store write. -/
inductive Event (K V E S : Type) where
  | call : K → Option S → Except (TaskInterrupt K E) V → Option S → Event K V E S
  | write : K → V → Event K V E S

/-- Goals of the task invocations in a trace. -/
def callGoals : List (Event K V E S) → List K :=
  List.filterMap fun e =>
    match e with
    | .call g _ _ _ => some g
    | _ => none

/-- Goals of the task invocations that received empty (`None`) resumable
state. -/
def noneCallGoals : List (Event K V E S) → List K :=
  List.filterMap fun e =>
    match e with
    | .call g none _ _ => some g
    | _ => none

/-- The (goal, solution) pairs written to the store during a run. -/
def writePairs : List (Event K V E S) → List (K × V) :=
  List.filterMap fun e =>
    match e with
    | .write g v => some (g, v)
    | _ => none

/-- Goals written to the store during a run. -/
def writeGoals (tr : List (Event K V E S)) : List K := (writePairs tr).map Prod.fst

/-- The resumable state received by the first task invocation for goal `g`
in a trace, if there is one. -/
def firstCallState (g : K) [DecidableEq K] : List (Event K V E S) → Option (Option S)
  | [] => none
  | .call g2 sIn _ _ :: rest => if g2 = g then some sIn else firstCallState g rest
  | .write _ _ :: rest => firstCallState g rest

/-- Shape of the run traces: events come in chunks of either a single task
invocation, or a task invocation returning `Ok` immediately followed by
the store write of that same goal and solution. In particular every store
write is preceded by the `Done` of its own goal. -/
inductive Chunked : List (Event K V E S) → Prop
  | nil : Chunked []
  | callOnly (g : K) (s : Option S) (r : Except (TaskInterrupt K E) V) (s2 : Option S)
      (tr : List (Event K V E S)) : Chunked tr → Chunked (.call g s r s2 :: tr)
  | callWrite (g : K) (s : Option S) (sol : V) (s2 : Option S)
      (tr : List (Event K V E S)) : Chunked tr →
      Chunked (.call g s (.ok sol) s2 :: .write g sol :: tr)

/-- Result of one iteration of the driver loop: either the loop continues
with an updated store and driver state, or it breaks with a result. -/
inductive StepRes (K V E S : Type) where
  | next : Store K V → ExecState K S → StepRes K V E S
  | halt : Except (DynamicError K E) V → StepRes K V E S

/-- One iteration of the `loop` in `execute`, together with the
instrumentation events it emits. Mirrors the Rust `match` arm by arm:
`Ok` pops the stack (breaking when it is empty) and commits the solution;
`Error` breaks; `Dependency` pushes the current frame and then scans the
whole stack for the requested subgoal; `Tail` scans the stack without
pushing. -/
def stepExec [DecidableEq K] (task : Task K V E S) (store : Store K V)
    (st : ExecState K S) : StepRes K V E S × List (Event K V E S) :=
  let r := task.solve st.current store st.state
  let ev : Event K V E S := .call st.current st.state r.1 r.2
  match r.1 with
  | .ok sol =>
    match st.stack with
    | [] => (.halt (.ok sol), [ev])
    | (g2, s2) :: rest =>
      (.next (Store.add store st.current sol) ⟨g2, s2, rest⟩, [ev, .write st.current sol])
  | .error (.error e) => (.halt (.error (.error e)), [ev])
  | .error (.dependency d) =>
    let stack2 := (st.current, r.2) :: st.stack
    if stack2.any (fun f => decide (f.1 = d.key)) then
      (.halt (.error (.circularDependency d.key)), [ev])
    else
      (.next store ⟨d.key, none, stack2⟩, [ev])
  | .error (.tail t) =>
    if st.stack.any (fun f => decide (f.1 = t)) then
      (.halt (.error (.circularDependency t)), [ev])
    else
      (.next store ⟨t, none, st.stack⟩, [ev])

/-- Fuel-indexed iteration of the driver loop. Returns `none` when the
fuel runs out before the loop breaks, and otherwise the accumulated event
trace, the store at the break, and the result. -/
def runAux [DecidableEq K] (task : Task K V E S) :
    Nat → Store K V → ExecState K S →
    Option (List (Event K V E S) × Store K V × Except (DynamicError K E) V)
  | 0, _, _ => none
  | n + 1, store, st =>
    match stepExec task store st with
    | (.halt r, evs) => some (evs, store, r)
    | (.next store2 st2, evs) =>
      (runAux task n store2 st2).map fun p => (evs ++ p.1, p.2.1, p.2.2)

/-- `execute(goal, task, store)`: run the driver loop from the root goal
with empty state and an empty dependency stack. Fuel-indexed. -/
def execute [DecidableEq K] (task : Task K V E S) (goal : K) (store : Store K V)
    (fuel : Nat) : Option (Except (DynamicError K E) V) :=
  (runAux task fuel store ⟨goal, none, []⟩).map fun p => p.2.2

/-- The event trace of a run, when it completes within the fuel. -/
def runTrace [DecidableEq K] (task : Task K V E S) (fuel : Nat) (store : Store K V)
    (st : ExecState K S) : Option (List (Event K V E S)) :=
  (runAux task fuel store st).map fun p => p.1

/-- The result of a run, when it completes within the fuel. -/
def runResult [DecidableEq K] (task : Task K V E S) (fuel : Nat) (store : Store K V)
    (st : ExecState K S) : Option (Except (DynamicError K E) V) :=
  (runAux task fuel store st).map fun p => p.2.2

/-- The (goal, solution) pairs written during a run, when it completes. -/
def runWrites [DecidableEq K] (task : Task K V E S) (fuel : Nat) (store : Store K V)
    (st : ExecState K S) : Option (List (K × V)) :=
  (runAux task fuel store st).map fun p => writePairs p.1

/-- A task whose dependency requests always name goals missing from the
store it was handed. Every Rust task has this property: a `Dependency`
value has private fields and borrows the accessor, so it can only be
manufactured during the current call, by `Subtasker::solve` or
`Subtasker::precheck` reporting that the store lacks the goal. -/
def DepFresh (task : Task K V E S) : Prop :=
  ∀ g store s d, (task.solve g store s).1 = .error (.dependency d) → store d.key = none

/-- A task that never requests a tail redirect. -/
def NoTail (task : Task K V E S) : Prop :=
  ∀ g store s t, (task.solve g store s).1 ≠ .error (.tail t)

/-- A task whose tail redirects always target goals missing from the
store. -/
def TailFresh (task : Task K V E S) : Prop :=
  ∀ g store s t, (task.solve g store s).1 = .error (.tail t) → store t = none

/-- A task that populates its resumable state (leaves it non-empty)
whenever it suspends through a dependency request. -/
def Populating (task : Task K V E S) : Prop :=
  ∀ g store s d, (task.solve g store s).1 = .error (.dependency d) →
    (task.solve g store s).2 ≠ none

/-- Direct recursive memoized evaluation of a task strategy, the
specification-side reference for the equivalence claim: solve the goal by
native recursion, recursing into a requested subgoal and then resuming the
goal with the state the call left behind, committing each solved goal to
the memo store, and following tail redirects in place. Fuel-indexed. -/
def naiveSolveGoal [DecidableEq K] (task : Task K V E S) :
    Nat → Store K V → K → Option S → Option (Except E (Store K V × V))
  | 0, _, _, _ => none
  | m + 1, store, g, st =>
    let r := task.solve g store st
    match r.1 with
    | .ok sol => some (.ok (Store.add store g sol, sol))
    | .error (.error e) => some (.error e)
    | .error (.dependency d) =>
      match naiveSolveGoal task m store d.key none with
      | none => none
      | some (.error e) => some (.error e)
      | some (.ok (store2, _)) => naiveSolveGoal task m store2 g r.2
    | .error (.tail t) => naiveSolveGoal task m store t none

/-- Recursive memoized evaluation of a goal followed by the resumption of
a list of suspended frames, the specification-side meaning of the driver
dependency stack: evaluate the head goal, then resume each suspended
frame in turn on the updated store. -/
def naiveChain [DecidableEq K] (task : Task K V E S) (m : Nat) :
    Store K V → K → Option S → List (K × Option S) → Option (Except E V)
  | store, g, st, [] =>
    (naiveSolveGoal task m store g st).map fun r => r.map Prod.snd
  | store, g, st, (g2, s2) :: rest =>
    match naiveSolveGoal task m store g st with
    | none => none
    | some (.error e) => some (.error e)
    | some (.ok (store2, _)) => naiveChain task m store2 g2 s2 rest

/-- Concrete task that requests its own goal as a subgoal when it is not
yet solved. -/
def selfDepTask : Task Nat Nat Unit Unit :=
  ⟨fun g store s =>
    match store g with
    | some v => (.ok v, s)
    | none => (.error (.dependency ⟨g⟩), s)⟩

/-- Concrete task that tail-redirects every goal to itself. -/
def tailLoopTask : Task Nat Nat Unit Unit :=
  ⟨fun g _ s => (.error (.tail g), s)⟩

/-- Concrete stateless task: goal 0 is immediate, any other goal needs the
solution of goal 0. It never touches its resumable state, so after its
dependency is solved it is restarted from scratch with empty state. -/
def restartTask : Task Nat Nat Unit Unit :=
  ⟨fun g store s =>
    if g = 0 then (.ok 0, s)
    else
      match store 0 with
      | some v => (.ok v, s)
      | none => (.error (.dependency ⟨0⟩), s)⟩

/-- Concrete stateful task: goal 0 is immediate, any other goal needs goal
0 and records in its resumable state that it already asked. -/
def statefulTask : Task Nat Nat Unit Unit :=
  ⟨fun g store s =>
    if g = 0 then (.ok 1, s)
    else
      match store 0 with
      | some v => (.ok (v + 1), s)
      | none => (.error (.dependency ⟨0⟩), some ())⟩

/-- Concrete task used for the resumable-state claim: goal 0 is immediate;
any other goal, on its first call, records 42 in its state and requests
goal 0; on resumption it returns the recorded value. -/
def resumeTask : Task Nat Nat Unit Nat :=
  ⟨fun g store s =>
    if g = 0 then (.ok 7, s)
    else
      match s with
      | some v => (.ok v, some v)
      | none =>
        match store 0 with
        | some _ => (.ok 99, none)
        | none => (.error (.dependency ⟨0⟩), some 42)⟩

/-- Concrete task exercising a tail redirect onto an already-solved goal:
goal 1 first needs goal 3, then needs goal 2, then is done; goal 3 answers
7 the first time and 8 once its own solution is visible in the store; goal
2 tail-redirects to goal 3. -/
def tailOverwriteTask : Task Nat Nat Unit Nat :=
  ⟨fun g store s =>
    if g = 1 then
      match s with
      | some x => (.ok (x + 100), some x)
      | none =>
        match store 3 with
        | none => (.error (.dependency ⟨3⟩), none)
        | some x =>
          match store 2 with
          | none => (.error (.dependency ⟨2⟩), some x)
          | some y => (.ok (x + y), none)
    else if g = 2 then (.error (.tail 3), s)
    else
      match store 3 with
      | some _ => (.ok 8, s)
      | none => (.ok 7, s)⟩

/-- Concrete store holding a single solution, 5 for goal 1. -/
def store8 : Store Nat Nat := Store.add (Store.empty Nat Nat) 1 5

/-!
Helper lemmas about the store, the stack membership check of the driver,
and `precheck`.
-/

theorem store_contains_false {store : Store K V} {g : K}
    (h : Store.contains store g = false) : store g = none := by
  unfold Store.contains at h
  cases hv : store g with
  | none => rfl
  | some v => rw [hv] at h; simp at h

theorem any_key_true_iff [DecidableEq K] (l : List (K × Option S)) (x : K) :
    (l.any fun f => decide (f.1 = x)) = true ↔ x ∈ l.map Prod.fst := by
  simp [List.any_eq_true]

theorem any_key_false_iff [DecidableEq K] (l : List (K × Option S)) (x : K) :
    (l.any fun f => decide (f.1 = x)) = false ↔ x ∉ l.map Prod.fst := by
  rw [← Bool.not_eq_true, not_iff_not]
  exact any_key_true_iff l x

theorem precheck_ok_iff (store : Store K V) (gs : List K) :
    precheck store gs = .ok () ↔ ∀ g ∈ gs, Store.contains store g = true := by
  induction gs with
  | nil => simp [precheck]
  | cons g gs ih =>
    cases h : Store.contains store g with
    | true => simp [precheck, h, ih]
    | false => simp [precheck, h]

theorem precheck_error_first_missing (store : Store K V) (gs : List K)
    (d : Dependency K) (h : precheck store gs = .error d) :
    (gs.dropWhile fun g => Store.contains store g).head? = some d.key ∧
      store d.key = none := by
  induction gs with
  | nil => simp [precheck] at h
  | cons g gs ih =>
    cases hc : Store.contains store g with
    | true =>
      rw [precheck, hc] at h
      rw [List.dropWhile_cons_of_pos (by simp [hc])]
      exact ih h
    | false =>
      rw [precheck, hc] at h
      injection h with h2
      subst h2
      rw [List.dropWhile_cons_of_neg (by simp [hc])]
      exact ⟨rfl, store_contains_false hc⟩

theorem precheckQueried_eq (store : Store K V) (gs : List K) :
    precheckQueried store gs =
      (gs.takeWhile fun g => Store.contains store g) ++
        (gs.dropWhile fun g => Store.contains store g).take 1 := by
  induction gs with
  | nil => simp [precheckQueried]
  | cons g gs ih =>
    cases hc : Store.contains store g with
    | true =>
      rw [precheckQueried, hc, List.takeWhile_cons_of_pos (by simp [hc]),
        List.dropWhile_cons_of_pos (by simp [hc]), ih]
      rfl
    | false =>
      rw [precheckQueried, hc, List.takeWhile_cons_of_neg (by simp [hc]),
        List.dropWhile_cons_of_neg (by simp [hc])]
      rfl

/-- C8: for every store and goal sequence, `precheck` returns `Ok` exactly
when every goal is contained in the store; otherwise it returns a
`Dependency` carrying the first goal missing from the store, and the
goals it queries against the store are exactly those up to and including
that first miss — nothing after it is touched. -/
theorem claim8_precheck (store : Store K V) (gs : List K) :
    (precheck store gs = .ok () ↔ ∀ g ∈ gs, Store.contains store g = true) ∧
    (∀ d : Dependency K, precheck store gs = .error d →
      (gs.dropWhile fun g => Store.contains store g).head? = some d.key ∧
        store d.key = none) ∧
    precheckQueried store gs =
      (gs.takeWhile fun g => Store.contains store g) ++
        (gs.dropWhile fun g => Store.contains store g).take 1 :=
  ⟨precheck_ok_iff store gs,
    fun d h => precheck_error_first_missing store gs d h,
    precheckQueried_eq store gs⟩

/-- C8 witness: on the store solving only goal 1, prechecking the goals
1, 2, 3 stops at goal 2, and goal 3 is never queried. -/
theorem claim8_witness :
    (([1, 2, 3].dropWhile fun g => Store.contains store8 g).head? = some 2 ∧
      store8 2 = none) ∧
    precheckQueried store8 [1, 2, 3] = [1, 2] := by
  refine ⟨(claim8_precheck store8 [1, 2, 3]).2.1 ⟨2⟩ (by rfl), ?_⟩
  rw [(claim8_precheck store8 [1, 2, 3]).2.2]
  rfl

/-- C10: the accessor operations construct a `Dependency` only when the
store lacks the goal; every `TaskInterrupt::Dependency` producible by
task code names a goal missing from the store, while `Tail` is producible
with any goal, solved or not. -/
theorem claim10_dependency_missing (store : Store K V) :
    (∀ (g : K) (d : Dependency K), subtaskerSolve store g = .error d →
      store d.key = none) ∧
    (∀ (gs : List K) (d : Dependency K), precheck store gs = .error d →
      store d.key = none) ∧
    (∀ (i : TaskInterrupt K E) (d : Dependency K), Producible store i →
      i = .dependency d → store d.key = none) ∧
    (∀ g : K, Producible (E := E) store (.tail g)) := by
  have hsolve : ∀ (g : K) (d : Dependency K), subtaskerSolve store g = .error d →
      store d.key = none := by
    intro g d h
    unfold subtaskerSolve at h
    cases hv : store g with
    | some v => rw [hv] at h; simp at h
    | none =>
      rw [hv] at h
      injection h with h2
      subst h2
      exact hv
  have hpre : ∀ (gs : List K) (d : Dependency K), precheck store gs = .error d →
      store d.key = none := fun gs d h => (precheck_error_first_missing store gs d h).2
  refine ⟨hsolve, hpre, ?_, fun g => .ofTail g⟩
  intro i d hp he
  cases hp with
  | ofError e => simp at he
  | ofTail g => simp at he
  | ofSolve g d2 h =>
    injection he with he2
    subst he2
    exact hsolve g _ h
  | ofPrecheck gs d2 h =>
    injection he with he2
    subst he2
    exact hpre gs _ h

/-- C10 witness: on the store solving only goal 1, the accessor reports a
dependency on goal 0 and goal 0 is indeed unsolved; a `Tail` naming the
already-solved goal 1 is nevertheless producible. -/
theorem claim10_witness :
    store8 0 = none ∧ Producible (E := Unit) store8 (.tail 1) ∧ store8 1 = some 5 :=
  ⟨(claim10_dependency_missing (E := Unit) store8).1 0 ⟨0⟩ (by rfl),
    (claim10_dependency_missing (E := Unit) store8).2.2.2 1, by rfl⟩

/-!
Single-step behaviour of the driver on dependency requests and tail
redirects.
-/

theorem dep_on_stack_halts [DecidableEq K] (task : Task K V E S) (store : Store K V)
    (st : ExecState K S) (d : Dependency K) (s2 : Option S)
    (h : task.solve st.current store st.state = (.error (.dependency d), s2))
    (hmem : d.key ∈ st.current :: stackGoals st) :
    (stepExec task store st).1 = .halt (.error (.circularDependency d.key)) := by
  have hc : (((st.current, s2) :: st.stack).any fun f => decide (f.1 = d.key)) = true := by
    rw [any_key_true_iff]
    simpa [stackGoals] using hmem
  simp [stepExec, h, hc]

theorem dep_not_on_stack_continues [DecidableEq K] (task : Task K V E S)
    (store : Store K V) (st : ExecState K S) (d : Dependency K) (s2 : Option S)
    (h : task.solve st.current store st.state = (.error (.dependency d), s2))
    (hmem : d.key ∉ st.current :: stackGoals st) :
    stepExec task store st =
      (.next store ⟨d.key, none, (st.current, s2) :: st.stack⟩,
        [.call st.current st.state (.error (.dependency d)) s2]) := by
  have hc : (((st.current, s2) :: st.stack).any fun f => decide (f.1 = d.key)) = false := by
    rw [any_key_false_iff]
    simpa [stackGoals] using hmem
  simp [stepExec, h, hc]

/-- C4 counterexample: a goal that requests itself as a subgoal while the
dependency stack is empty is reported as a circular dependency at once,
even though the requested goal equals no goal on the dependency stack —
the code pushes the current frame before scanning the stack. -/
theorem claim4_counterexample :
    (stepExec selfDepTask (Store.empty Nat Nat) ⟨0, none, []⟩).1 =
      .halt (.error (.circularDependency 0)) ∧
    (0 : Nat) ∉ stackGoals (⟨0, none, []⟩ : ExecState Nat Unit) := by
  exact ⟨rfl, by simp [stackGoals]⟩

/-- C4 amended: from `Evaluating(g, s)`, a `NeedsSubgoal(g2)` outcome makes
`execute` terminate with `CircularDependency(g2)` if and only if `g2`
equals some goal on the dependency stack or the current goal `g` itself;
otherwise `(g, s)` is pushed and evaluation moves to `g2` with empty
state. -/
theorem claim4_amended [DecidableEq K] (task : Task K V E S) (store : Store K V)
    (st : ExecState K S) (d : Dependency K) (s2 : Option S)
    (h : task.solve st.current store st.state = (.error (.dependency d), s2)) :
    ((stepExec task store st).1 = .halt (.error (.circularDependency d.key)) ↔
      d.key ∈ st.current :: stackGoals st) ∧
    (d.key ∉ st.current :: stackGoals st →
      stepExec task store st =
        (.next store ⟨d.key, none, (st.current, s2) :: st.stack⟩,
          [.call st.current st.state (.error (.dependency d)) s2])) := by
  constructor
  · constructor
    · intro hh
      by_contra hmem
      rw [dep_not_on_stack_continues task store st d s2 h hmem] at hh
      simp at hh
    · exact dep_on_stack_halts task store st d s2 h
  · exact dep_not_on_stack_continues task store st d s2 h

/-- C4 witness: goal 1 requesting goal 0 above a stack holding goal 5 is
not a cycle; the frame is pushed and evaluation moves to goal 0. -/
theorem claim4_witness :
    stepExec restartTask (Store.empty Nat Nat) ⟨1, none, [(5, none)]⟩ =
      (.next (Store.empty Nat Nat) ⟨0, none, [(1, none), (5, none)]⟩,
        [.call 1 none (.error (.dependency ⟨0⟩)) none]) :=
  (claim4_amended restartTask (Store.empty Nat Nat) ⟨1, none, [(5, none)]⟩ ⟨0⟩ none
    (by rfl)).2 (by simp [stackGoals])

theorem tail_not_on_stack_continues [DecidableEq K] (task : Task K V E S)
    (store : Store K V) (st : ExecState K S) (t : K) (s2 : Option S)
    (h : task.solve st.current store st.state = (.error (.tail t), s2))
    (hmem : t ∉ stackGoals st) :
    stepExec task store st =
      (.next store ⟨t, none, st.stack⟩,
        [.call st.current st.state (.error (.tail t)) s2]) := by
  have hc : (st.stack.any fun f => decide (f.1 = t)) = false := by
    rw [any_key_false_iff]
    simpa [stackGoals] using hmem
  simp [stepExec, h, hc]

theorem tail_on_stack_halts [DecidableEq K] (task : Task K V E S)
    (store : Store K V) (st : ExecState K S) (t : K) (s2 : Option S)
    (h : task.solve st.current store st.state = (.error (.tail t), s2))
    (hmem : t ∈ stackGoals st) :
    (stepExec task store st).1 = .halt (.error (.circularDependency t)) := by
  have hc : (st.stack.any fun f => decide (f.1 = t)) = true := by
    rw [any_key_true_iff]
    simpa [stackGoals] using hmem
  simp [stepExec, h, hc]

/-- C6: from `Evaluating(g, s)`, a `TailRedirect(t)` outcome terminates
with `CircularDependency(t)` exactly when `t` equals a goal on the
dependency stack; otherwise evaluation moves to `t` with empty state, the
dependency stack is left unchanged (nothing is pushed) and the frame for
`g` is discarded. -/
theorem claim6_tail_redirect [DecidableEq K] (task : Task K V E S) (store : Store K V)
    (st : ExecState K S) (t : K) (s2 : Option S)
    (h : task.solve st.current store st.state = (.error (.tail t), s2)) :
    ((stepExec task store st).1 = .halt (.error (.circularDependency t)) ↔
      t ∈ stackGoals st) ∧
    (t ∉ stackGoals st →
      stepExec task store st =
        (.next store ⟨t, none, st.stack⟩,
          [.call st.current st.state (.error (.tail t)) s2])) := by
  constructor
  · constructor
    · intro hh
      by_contra hmem
      rw [tail_not_on_stack_continues task store st t s2 h hmem] at hh
      simp at hh
    · exact tail_on_stack_halts task store st t s2 h
  · exact tail_not_on_stack_continues task store st t s2 h

/-- C6 witness: a tail redirect of goal 5 to itself above a stack holding
goal 9 is not flagged; the stack is unchanged and evaluation restarts
goal 5 with empty state. -/
theorem claim6_witness :
    stepExec tailLoopTask (Store.empty Nat Nat) ⟨5, none, [(9, none)]⟩ =
      (.next (Store.empty Nat Nat) ⟨5, none, [(9, none)]⟩,
        [.call 5 none (.error (.tail 5)) none]) :=
  (claim6_tail_redirect tailLoopTask (Store.empty Nat Nat) ⟨5, none, [(9, none)]⟩ 5 none
    (by rfl)).2 (by simp [stackGoals])

theorem step_preserves_inv [DecidableEq K] (task : Task K V E S) (store : Store K V)
    (st : ExecState K S) (store2 : Store K V) (st2 : ExecState K S)
    (evs : List (Event K V E S)) (hinv : StackInv st)
    (hstep : stepExec task store st = (.next store2 st2, evs)) : StackInv st2 := by
  rcases hr : task.solve st.current store st.state with ⟨res, post⟩
  unfold StackInv stackGoals at hinv ⊢
  match res with
  | .ok sol =>
    match hstack : st.stack with
    | [] => simp [stepExec, hr, hstack] at hstep
    | (g2, s2) :: rest =>
      simp only [stepExec, hr, hstack] at hstep
      injection hstep with h1 _
      injection h1 with _ h2
      subst h2
      rw [hstack] at hinv
      simpa using hinv.of_cons
  | .error (.error e) => simp [stepExec, hr] at hstep
  | .error (.dependency d) =>
    rcases hc : ((st.current, post) :: st.stack).any fun f => decide (f.1 = d.key) with _ | _
    · simp only [stepExec, hr, hc, Bool.false_eq_true, if_false] at hstep
      injection hstep with h1 _
      injection h1 with _ h2
      subst h2
      have hd : d.key ∉ ((st.current, post) :: st.stack).map Prod.fst :=
        (any_key_false_iff _ _).mp hc
      simp only [List.map_cons] at hd ⊢
      exact List.nodup_cons.mpr ⟨hd, hinv⟩
    · simp [stepExec, hr, hc] at hstep
  | .error (.tail t) =>
    rcases hc : st.stack.any fun f => decide (f.1 = t) with _ | _
    · simp only [stepExec, hr, hc, Bool.false_eq_true, if_false] at hstep
      injection hstep with h1 _
      injection h1 with _ h2
      subst h2
      have ht : t ∉ st.stack.map Prod.fst := (any_key_false_iff _ _).mp hc
      exact List.nodup_cons.mpr ⟨ht, hinv.of_cons⟩
    · simp [stepExec, hr, hc] at hstep

/-- C7: the initial driver state satisfies the stack invariant — the
stacked goals are pairwise distinct and the current goal is not among
them — every driver step that continues the loop preserves it, and an
attempted violation (a dependency request naming the current goal or a
stacked goal) is reported as a `CircularDependency` error rather than
tolerated. -/
theorem claim7_stack_invariant [DecidableEq K] (task : Task K V E S) :
    (∀ g : K, StackInv (⟨g, none, []⟩ : ExecState K S)) ∧
    (∀ (store : Store K V) (st : ExecState K S) store2 st2 evs, StackInv st →
      stepExec task store st = (.next store2 st2, evs) → StackInv st2) ∧
    (∀ (store : Store K V) (st : ExecState K S) (d : Dependency K) (s2 : Option S),
      task.solve st.current store st.state = (.error (.dependency d), s2) →
      d.key ∈ st.current :: stackGoals st →
      (stepExec task store st).1 = .halt (.error (.circularDependency d.key))) :=
  ⟨fun g => by simp [StackInv, stackGoals],
    fun store st store2 st2 evs hinv hstep =>
      step_preserves_inv task store st store2 st2 evs hinv hstep,
    fun store st d s2 h hmem => dep_on_stack_halts task store st d s2 h hmem⟩

/-- C7 witness: the invariant holds initially for goal 3, and is preserved
by the concrete dependency step of the stateless task from goal 1. -/
theorem claim7_witness :
    StackInv (⟨3, none, []⟩ : ExecState Nat Unit) ∧
    StackInv (⟨0, none, [(1, none)]⟩ : ExecState Nat Unit) :=
  ⟨(claim7_stack_invariant (V := Nat) (E := Unit) restartTask).1 3,
    (claim7_stack_invariant restartTask).2.1 (Store.empty Nat Nat) ⟨1, none, []⟩
      (Store.empty Nat Nat) ⟨0, none, [(1, none)]⟩
      [.call 1 none (.error (.dependency ⟨0⟩)) none]
      ((claim7_stack_invariant (V := Nat) (E := Unit) restartTask).1 1) (by rfl)⟩

/-!
Nontermination of a tail-redirect cycle, and the outcomes of a
terminating run.
-/

theorem tailLoop_run_none : ∀ (n : Nat) (store : Store Nat Nat) (g : Nat),
    runAux tailLoopTask n store ⟨g, none, []⟩ = none := by
  intro n
  induction n with
  | zero => intro store g; rfl
  | succ n ih =>
    intro store g
    have hstep : stepExec tailLoopTask store ⟨g, none, []⟩ =
        (.next store ⟨g, none, []⟩, [.call g none (.error (.tail g)) none]) := by
      simp [stepExec, tailLoopTask]
    rw [runAux, hstep]
    simp [ih]

/-- C3 counterexample: the task that tail-redirects every goal to itself
never terminates — `execute` returns no result for any amount of fuel, so
the cyclic dependency created by the tail redirect is not detected. -/
theorem claim3_counterexample :
    ¬ ∃ (n : Nat) (r : Except (DynamicError Nat Unit) Nat),
        execute tailLoopTask 0 (Store.empty Nat Nat) n = some r := by
  rintro ⟨n, r, h⟩
  rw [execute, tailLoop_run_none] at h
  simp at h

/-- C3 amended: a run of `execute` need not terminate — a cycle of tail
redirects loops forever — but every terminating run ends in exactly one
of `Ok`, a domain error, or a detected `CircularDependency`; a
`NeedsSubgoal` naming the current goal or a stacked goal is detected at
once, while a tail redirect to the current goal continues the loop
unchanged. -/
theorem claim3_amended [DecidableEq K] (task : Task K V E S) :
    (∀ (fuel : Nat) (store : Store K V) (goal : K) (r : Except (DynamicError K E) V),
      execute task goal store fuel = some r →
      (∃ sol, r = .ok sol) ∨ (∃ e, r = .error (.error e)) ∨
        (∃ g2, r = .error (.circularDependency g2))) ∧
    (∀ (store : Store K V) (st : ExecState K S) (d : Dependency K) (s2 : Option S),
      task.solve st.current store st.state = (.error (.dependency d), s2) →
      d.key ∈ st.current :: stackGoals st →
      (stepExec task store st).1 = .halt (.error (.circularDependency d.key))) ∧
    (∀ (store : Store K V) (g : K) (s s2 : Option S),
      task.solve g store s = (.error (.tail g), s2) →
      stepExec task store ⟨g, s, []⟩ =
        (.next store ⟨g, none, []⟩, [.call g s (.error (.tail g)) s2])) := by
  refine ⟨?_, fun store st d s2 h hmem => dep_on_stack_halts task store st d s2 h hmem, ?_⟩
  · intro fuel store goal r _
    match r with
    | .ok sol => exact .inl ⟨sol, rfl⟩
    | .error (.error e) => exact .inr (.inl ⟨e, rfl⟩)
    | .error (.circularDependency g2) => exact .inr (.inr ⟨g2, rfl⟩)
  · intro store g s s2 h
    exact tail_not_on_stack_continues task store ⟨g, s, []⟩ g s2 h (by simp [stackGoals])

/-!
Equational helpers for the remaining driver branches and for unfolding
`runAux`, and basic facts about the stack invariant.
-/

theorem step_ok_nil [DecidableEq K] {task : Task K V E S} {store : Store K V}
    {st : ExecState K S} {sol : V} {post : Option S}
    (h : task.solve st.current store st.state = (.ok sol, post)) (hstack : st.stack = []) :
    stepExec task store st = (.halt (.ok sol), [.call st.current st.state (.ok sol) post]) := by
  simp [stepExec, h, hstack]

theorem step_ok_cons [DecidableEq K] {task : Task K V E S} {store : Store K V}
    {st : ExecState K S} {sol : V} {post : Option S} {g2 : K} {s2 : Option S}
    {rest : List (K × Option S)}
    (h : task.solve st.current store st.state = (.ok sol, post))
    (hstack : st.stack = (g2, s2) :: rest) :
    stepExec task store st =
      (.next (Store.add store st.current sol) ⟨g2, s2, rest⟩,
        [.call st.current st.state (.ok sol) post, .write st.current sol]) := by
  simp [stepExec, h, hstack]

theorem step_error [DecidableEq K] {task : Task K V E S} {store : Store K V}
    {st : ExecState K S} {e : E} {post : Option S}
    (h : task.solve st.current store st.state = (.error (.error e), post)) :
    stepExec task store st =
      (.halt (.error (.error e)), [.call st.current st.state (.error (.error e)) post]) := by
  simp [stepExec, h]

theorem dep_on_stack_halts_pair [DecidableEq K] {task : Task K V E S} {store : Store K V}
    {st : ExecState K S} {d : Dependency K} {s2 : Option S}
    (h : task.solve st.current store st.state = (.error (.dependency d), s2))
    (hmem : d.key ∈ st.current :: stackGoals st) :
    stepExec task store st =
      (.halt (.error (.circularDependency d.key)),
        [.call st.current st.state (.error (.dependency d)) s2]) := by
  have hc : (((st.current, s2) :: st.stack).any fun f => decide (f.1 = d.key)) = true := by
    rw [any_key_true_iff]
    simpa [stackGoals] using hmem
  simp [stepExec, h, hc]

theorem tail_on_stack_halts_pair [DecidableEq K] {task : Task K V E S} {store : Store K V}
    {st : ExecState K S} {t : K} {s2 : Option S}
    (h : task.solve st.current store st.state = (.error (.tail t), s2))
    (hmem : t ∈ stackGoals st) :
    stepExec task store st =
      (.halt (.error (.circularDependency t)),
        [.call st.current st.state (.error (.tail t)) s2]) := by
  have hc : (st.stack.any fun f => decide (f.1 = t)) = true := by
    rw [any_key_true_iff]
    simpa [stackGoals] using hmem
  simp [stepExec, h, hc]

theorem runAux_halt [DecidableEq K] {task : Task K V E S} {store : Store K V}
    {st : ExecState K S} {r : Except (DynamicError K E) V} {evs : List (Event K V E S)}
    (n : Nat) (h : stepExec task store st = (.halt r, evs)) :
    runAux task (n + 1) store st = some (evs, store, r) := by
  rw [runAux, h]

theorem runAux_next [DecidableEq K] {task : Task K V E S} {store store2 : Store K V}
    {st st2 : ExecState K S} {evs : List (Event K V E S)}
    (n : Nat) (h : stepExec task store st = (.next store2 st2, evs)) :
    runAux task (n + 1) store st =
      (runAux task n store2 st2).map fun p => (evs ++ p.1, p.2.1, p.2.2) := by
  rw [runAux, h]

theorem mem_stackGoals {st : ExecState K S} {g : K} {s : Option S}
    (h : (g, s) ∈ st.stack) : g ∈ stackGoals st :=
  List.mem_map_of_mem Prod.fst h

theorem StackInv.current_notMem {st : ExecState K S} (h : StackInv st) :
    st.current ∉ stackGoals st := (List.nodup_cons.mp h).1

theorem runAux_trace_head [DecidableEq K] {task : Task K V E S} {store : Store K V}
    {st : ExecState K S} {n : Nat} {tr : List (Event K V E S)} {sF : Store K V}
    {r : Except (DynamicError K E) V} (h : runAux task n store st = some (tr, sF, r)) :
    ∃ res s2 rest, tr = .call st.current st.state res s2 :: rest := by
  cases n with
  | zero => simp [runAux] at h
  | succ n =>
    rcases hsolve : task.solve st.current store st.state with ⟨res, post⟩
    cases res with
    | ok sol =>
      cases hstack : st.stack with
      | nil =>
        rw [runAux_halt n (step_ok_nil hsolve hstack)] at h
        simp only [Option.some.injEq, Prod.mk.injEq] at h
        exact ⟨_, _, _, h.1.symm⟩
      | cons f rest =>
        obtain ⟨g2, s2⟩ := f
        rw [runAux_next n (step_ok_cons hsolve hstack)] at h
        rcases Option.map_eq_some'.mp h with ⟨p, _, heq⟩
        simp only [Prod.mk.injEq] at heq
        exact ⟨_, _, _, heq.1.symm⟩
    | error i =>
      cases i with
      | error e =>
        rw [runAux_halt n (step_error hsolve)] at h
        simp only [Option.some.injEq, Prod.mk.injEq] at h
        exact ⟨_, _, _, h.1.symm⟩
      | dependency d =>
        by_cases hc : d.key ∈ st.current :: stackGoals st
        · rw [runAux_halt n (dep_on_stack_halts_pair hsolve hc)] at h
          simp only [Option.some.injEq, Prod.mk.injEq] at h
          exact ⟨_, _, _, h.1.symm⟩
        · rw [runAux_next n (dep_not_on_stack_continues task store st d post hsolve hc)] at h
          rcases Option.map_eq_some'.mp h with ⟨p, _, heq⟩
          simp only [Prod.mk.injEq] at heq
          exact ⟨_, _, _, heq.1.symm⟩
      | tail t =>
        by_cases hc : t ∈ stackGoals st
        · rw [runAux_halt n (tail_on_stack_halts_pair hsolve hc)] at h
          simp only [Option.some.injEq, Prod.mk.injEq] at h
          exact ⟨_, _, _, h.1.symm⟩
        · rw [runAux_next n (tail_not_on_stack_continues task store st t post hsolve hc)] at h
          rcases Option.map_eq_some'.mp h with ⟨p, _, heq⟩
          simp only [Prod.mk.injEq] at heq
          exact ⟨_, _, _, heq.1.symm⟩

@[simp]
theorem firstCallState_nil [DecidableEq K] (g : K) :
    firstCallState g ([] : List (Event K V E S)) = none := rfl

@[simp]
theorem firstCallState_call [DecidableEq K] (g g2 : K) (sIn : Option S)
    (r : Except (TaskInterrupt K E) V) (s2 : Option S) (rest : List (Event K V E S)) :
    firstCallState g (.call g2 sIn r s2 :: rest) =
      if g2 = g then some sIn else firstCallState g rest := rfl

@[simp]
theorem firstCallState_write [DecidableEq K] (g g2 : K) (v : V)
    (rest : List (Event K V E S)) :
    firstCallState (S := S) (E := E) g (.write g2 v :: rest) = firstCallState g rest := rfl

/-- While a frame `(g, s)` sits on the dependency stack, the next task
invocation for `g` in the rest of the run — if there is one — receives
exactly the suspended state `s`. -/
theorem frame_faithful [DecidableEq K] (task : Task K V E S) :
    ∀ (n : Nat) (store : Store K V) (st : ExecState K S) (g : K) (s : Option S)
      (tr : List (Event K V E S)) (sF : Store K V) (r : Except (DynamicError K E) V),
      StackInv st → (g, s) ∈ st.stack → runAux task n store st = some (tr, sF, r) →
      firstCallState g tr = none ∨ firstCallState g tr = some s := by
  intro n
  induction n with
  | zero => intro store st g s tr sF r _ _ hrun; simp [runAux] at hrun
  | succ n ih =>
    intro store st g s tr sF r hinv hmem hrun
    have hg : g ∈ stackGoals st := mem_stackGoals hmem
    have hcur : st.current ≠ g := fun he => (StackInv.current_notMem hinv) (by rw [he]; exact hg)
    rcases hsolve : task.solve st.current store st.state with ⟨res, post⟩
    cases res with
    | ok sol =>
      cases hstack : st.stack with
      | nil => rw [hstack] at hmem; simp at hmem
      | cons f rest =>
        obtain ⟨g2, s2⟩ := f
        have hstep := step_ok_cons hsolve hstack
        rw [runAux_next n hstep] at hrun
        rcases Option.map_eq_some'.mp hrun with ⟨p, hp, heq⟩
        obtain ⟨tr2, sF2, r2⟩ := p
        simp only [Prod.mk.injEq] at heq
        obtain ⟨htr, -, -⟩ := heq
        subst htr
        rw [hstack] at hmem
        rcases List.mem_cons.mp hmem with hfe | hrest
        · obtain ⟨hgg, hss⟩ : g = g2 ∧ s = s2 := by
            simpa [Prod.mk.injEq] using hfe
          subst hgg
          subst hss
          obtain ⟨res2, s22, rest2, htr2⟩ := runAux_trace_head hp
          right
          simp only [List.cons_append, List.nil_append, firstCallState_call,
            firstCallState_write, if_neg hcur, htr2]
          simp
        · have hinv2 := step_preserves_inv task store st _ _ _ hinv hstep
          have hlift := ih (Store.add store st.current sol) ⟨g2, s2, rest⟩ g s tr2 sF2 r2
            hinv2 hrest hp
          simpa only [List.cons_append, List.nil_append, firstCallState_call,
            firstCallState_write, if_neg hcur] using hlift
    | error i =>
      cases i with
      | error e =>
        rw [runAux_halt n (step_error hsolve)] at hrun
        simp only [Option.some.injEq, Prod.mk.injEq] at hrun
        obtain ⟨htr, -, -⟩ := hrun
        left
        rw [← htr]
        simp [if_neg hcur]
      | dependency d =>
        by_cases hc : d.key ∈ st.current :: stackGoals st
        · rw [runAux_halt n (dep_on_stack_halts_pair hsolve hc)] at hrun
          simp only [Option.some.injEq, Prod.mk.injEq] at hrun
          obtain ⟨htr, -, -⟩ := hrun
          left
          rw [← htr]
          simp [if_neg hcur]
        · have hstep := dep_not_on_stack_continues task store st d post hsolve hc
          rw [runAux_next n hstep] at hrun
          rcases Option.map_eq_some'.mp hrun with ⟨p, hp, heq⟩
          obtain ⟨tr2, sF2, r2⟩ := p
          simp only [Prod.mk.injEq] at heq
          obtain ⟨htr, -, -⟩ := heq
          subst htr
          have hinv2 := step_preserves_inv task store st _ _ _ hinv hstep
          have hmem2 : (g, s) ∈ (st.current, post) :: st.stack :=
            List.mem_cons_of_mem _ hmem
          have hlift := ih store ⟨d.key, none, (st.current, post) :: st.stack⟩ g s
            tr2 sF2 r2 hinv2 hmem2 hp
          simpa only [List.cons_append, List.nil_append, firstCallState_call,
            if_neg hcur] using hlift
      | tail t =>
        by_cases hc : t ∈ stackGoals st
        · rw [runAux_halt n (tail_on_stack_halts_pair hsolve hc)] at hrun
          simp only [Option.some.injEq, Prod.mk.injEq] at hrun
          obtain ⟨htr, -, -⟩ := hrun
          left
          rw [← htr]
          simp [if_neg hcur]
        · have hstep := tail_not_on_stack_continues task store st t post hsolve hc
          rw [runAux_next n hstep] at hrun
          rcases Option.map_eq_some'.mp hrun with ⟨p, hp, heq⟩
          obtain ⟨tr2, sF2, r2⟩ := p
          simp only [Prod.mk.injEq] at heq
          obtain ⟨htr, -, -⟩ := heq
          subst htr
          have hinv2 := step_preserves_inv task store st _ _ _ hinv hstep
          have hlift := ih store ⟨t, none, st.stack⟩ g s tr2 sF2 r2 hinv2 hmem hp
          simpa only [List.cons_append, List.nil_append, firstCallState_call,
            if_neg hcur] using hlift

/-- C9: if the strategy, called for a goal `g` with empty state, stores
the value `v` in its resumable state and suspends through `NeedsSubgoal`,
then in the rest of the run the next call for `g` — which happens when
its frame is popped — receives exactly `some v`, not a reset state. -/
theorem claim9_state_continuity [DecidableEq K] (task : Task K V E S) (store : Store K V)
    (g : K) (stack : List (K × Option S)) (d : Dependency K) (v : S) (n : Nat)
    (tr : List (Event K V E S)) (sF : Store K V) (r : Except (DynamicError K E) V)
    (hinv : StackInv (⟨g, none, stack⟩ : ExecState K S))
    (hsusp : task.solve g store none = (.error (.dependency d), some v))
    (hnocycle : d.key ∉ g :: stackGoals (⟨g, none, stack⟩ : ExecState K S))
    (hrun : runAux task n store ⟨d.key, none, (g, some v) :: stack⟩ = some (tr, sF, r)) :
    firstCallState g tr = none ∨ firstCallState g tr = some (some v) := by
  have hstep := dep_not_on_stack_continues task store ⟨g, none, stack⟩ d (some v) hsusp hnocycle
  have hinv2 := step_preserves_inv task store ⟨g, none, stack⟩ store
    ⟨d.key, none, (g, some v) :: stack⟩ _ hinv hstep
  exact frame_faithful task n store ⟨d.key, none, (g, some v) :: stack⟩ g (some v)
    tr sF r hinv2 (List.mem_cons_self _ _) hrun

/-- C9 witness: the concrete resumable task records 42 before suspending
on goal 0; in the continuation run the next call for goal 1 receives
exactly `some 42`. -/
theorem claim9_witness :
    firstCallState 1
        ([Event.call 0 none (.ok 7) none, Event.write 0 7,
          Event.call 1 (some 42) (.ok 42) (some 42)] : List (Event Nat Nat Unit Nat)) =
        none ∨
    firstCallState 1
        ([Event.call 0 none (.ok 7) none, Event.write 0 7,
          Event.call 1 (some 42) (.ok 42) (some 42)] : List (Event Nat Nat Unit Nat)) =
        some (some 42) :=
  claim9_state_continuity resumeTask (Store.empty Nat Nat) 1 [] ⟨0⟩ 42 3
    [Event.call 0 none (.ok 7) none, Event.write 0 7,
      Event.call 1 (some 42) (.ok 42) (some 42)]
    (Store.add (Store.empty Nat Nat) 0 7) (.ok 42)
    (by simp [StackInv, stackGoals]) (by rfl) (by simp [stackGoals]) (by rfl)

/-- C3 witness: the stateless two-goal run terminates with `Ok`, which is
one of the three permitted outcomes. -/
theorem claim3_witness :
    (∃ sol, (Except.ok 0 : Except (DynamicError Nat Unit) Nat) = .ok sol) ∨
    (∃ e, (Except.ok 0 : Except (DynamicError Nat Unit) Nat) = .error (.error e)) ∨
    (∃ g2, (Except.ok 0 : Except (DynamicError Nat Unit) Nat) =
      .error (.circularDependency g2)) :=
  (claim3_amended (S := Unit) restartTask).1 5 (Store.empty Nat Nat) 1 (.ok 0) (by rfl)


/-!
Equivalence of the trampoline driver with the direct recursive memoized
evaluation: equations and fuel monotonicity for the naive evaluator, the
simulation lemma, and the equivalence claim.
-/

theorem naive_ok [DecidableEq K] {task : Task K V E S} {store : Store K V} {g : K}
    {s post : Option S} {sol : V} (m : Nat)
    (h : task.solve g store s = (.ok sol, post)) :
    naiveSolveGoal task (m + 1) store g s = some (.ok (Store.add store g sol, sol)) := by
  simp [naiveSolveGoal, h]

theorem naive_err [DecidableEq K] {task : Task K V E S} {store : Store K V} {g : K}
    {s post : Option S} {e : E} (m : Nat)
    (h : task.solve g store s = (.error (.error e), post)) :
    naiveSolveGoal task (m + 1) store g s = some (.error e) := by
  simp [naiveSolveGoal, h]

theorem naive_dep [DecidableEq K] {task : Task K V E S} {store : Store K V} {g : K}
    {s post : Option S} {d : Dependency K} (m : Nat)
    (h : task.solve g store s = (.error (.dependency d), post)) :
    naiveSolveGoal task (m + 1) store g s =
      match naiveSolveGoal task m store d.key none with
      | none => none
      | some (.error e) => some (.error e)
      | some (.ok (store2, _)) => naiveSolveGoal task m store2 g post := by
  simp [naiveSolveGoal, h]

theorem naive_tail [DecidableEq K] {task : Task K V E S} {store : Store K V} {g : K}
    {s post : Option S} {t : K} (m : Nat)
    (h : task.solve g store s = (.error (.tail t), post)) :
    naiveSolveGoal task (m + 1) store g s = naiveSolveGoal task m store t none := by
  simp [naiveSolveGoal, h]

theorem naive_mono [DecidableEq K] (task : Task K V E S) :
    ∀ (m m2 : Nat), m ≤ m2 → ∀ (store : Store K V) (g : K) (s : Option S)
      (r : Except E (Store K V × V)),
      naiveSolveGoal task m store g s = some r → naiveSolveGoal task m2 store g s = some r := by
  intro m
  induction m with
  | zero => intro m2 _ store g s r h; simp [naiveSolveGoal] at h
  | succ m ih =>
    intro m2 hle store g s r h
    cases m2 with
    | zero => omega
    | succ m2 =>
      have hle2 : m ≤ m2 := by omega
      rcases hsolve : task.solve g store s with ⟨res, post⟩
      cases res with
      | ok sol => rw [naive_ok m hsolve] at h; rw [naive_ok m2 hsolve]; exact h
      | error i =>
        cases i with
        | error e => rw [naive_err m hsolve] at h; rw [naive_err m2 hsolve]; exact h
        | dependency d =>
          rw [naive_dep m hsolve] at h
          rw [naive_dep m2 hsolve]
          cases hsub : naiveSolveGoal task m store d.key none with
          | none => rw [hsub] at h; simp at h
          | some rsub =>
            rw [hsub] at h
            rw [ih m2 hle2 store d.key none rsub hsub]
            cases rsub with
            | error e => exact h
            | ok p =>
              obtain ⟨store2, v⟩ := p
              exact ih m2 hle2 store2 g post r h
        | tail t =>
          rw [naive_tail m hsolve] at h
          rw [naive_tail m2 hsolve]
          exact ih m2 hle2 store t none r h

theorem chain_mono [DecidableEq K] (task : Task K V E S) (m m2 : Nat) (hle : m ≤ m2) :
    ∀ (frames : List (K × Option S)) (store : Store K V) (g : K) (s : Option S)
      (r : Except E V),
      naiveChain task m store g s frames = some r →
      naiveChain task m2 store g s frames = some r := by
  intro frames
  induction frames with
  | nil =>
    intro store g s r h
    rw [naiveChain] at h ⊢
    rcases Option.map_eq_some'.mp h with ⟨a, ha, hmap⟩
    rw [naive_mono task m m2 hle store g s a ha]
    simp [hmap]
  | cons f rest ih =>
    obtain ⟨g2, s2⟩ := f
    intro store g s r h
    rw [naiveChain] at h ⊢
    cases hsub : naiveSolveGoal task m store g s with
    | none => rw [hsub] at h; simp at h
    | some rsub =>
      rw [hsub] at h
      rw [naive_mono task m m2 hle store g s rsub hsub]
      cases rsub with
      | error e => exact h
      | ok p =>
        obtain ⟨store2, v⟩ := p
        exact ih store2 g2 s2 r h

/-- Simulation of the driver by the naive evaluator: a driver run from an
arbitrary driver state that breaks with `Ok` is matched by the naive
evaluation of the current goal followed by the naive resumption of the
suspended frames, for some amount of naive fuel. -/
theorem run_ok_naiveChain [DecidableEq K] (task : Task K V E S) :
    ∀ (n : Nat) (store : Store K V) (g : K) (s : Option S)
      (frames : List (K × Option S)) (tr : List (Event K V E S)) (sF : Store K V)
      (sol : V),
      runAux task n store ⟨g, s, frames⟩ = some (tr, sF, .ok sol) →
      ∃ m, naiveChain task m store g s frames = some (.ok sol) := by
  intro n
  induction n with
  | zero => intro store g s frames tr sF sol hrun; simp [runAux] at hrun
  | succ n ih =>
    intro store g s frames tr sF sol hrun
    rcases hsolve : task.solve g store s with ⟨res, post⟩
    have hsolve2 : task.solve (⟨g, s, frames⟩ : ExecState K S).current store
        (⟨g, s, frames⟩ : ExecState K S).state = (res, post) := hsolve
    cases res with
    | ok sol1 =>
      cases frames with
      | nil =>
        rw [runAux_halt n (step_ok_nil hsolve2 rfl)] at hrun
        simp only [Option.some.injEq, Prod.mk.injEq, Except.ok.injEq] at hrun
        obtain ⟨-, -, hr⟩ := hrun
        subst hr
        refine ⟨1, ?_⟩
        rw [naiveChain, naive_ok 0 hsolve]
        rfl
      | cons f rest =>
        obtain ⟨g2, s2⟩ := f
        rw [runAux_next n (step_ok_cons hsolve2 rfl)] at hrun
        rcases Option.map_eq_some'.mp hrun with ⟨p, hp, heq⟩
        obtain ⟨tr2, sF2, r2⟩ := p
        simp only [Prod.mk.injEq] at heq
        obtain ⟨-, -, hr⟩ := heq
        subst hr
        obtain ⟨m, hm⟩ := ih (Store.add store g sol1) g2 s2 rest tr2 sF2 sol hp
        refine ⟨m + 1, ?_⟩
        rw [naiveChain, naive_ok m hsolve]
        exact chain_mono task m (m + 1) (Nat.le_succ m) rest (Store.add store g sol1)
          g2 s2 (.ok sol) hm
    | error i =>
      cases i with
      | error e =>
        rw [runAux_halt n (step_error hsolve2)] at hrun
        simp at hrun
      | dependency d =>
        by_cases hc : d.key ∈ (⟨g, s, frames⟩ : ExecState K S).current ::
            stackGoals ⟨g, s, frames⟩
        · rw [runAux_halt n (dep_on_stack_halts_pair hsolve2 hc)] at hrun
          simp at hrun
        · rw [runAux_next n
            (dep_not_on_stack_continues task store ⟨g, s, frames⟩ d post hsolve2 hc)] at hrun
          rcases Option.map_eq_some'.mp hrun with ⟨p, hp, heq⟩
          obtain ⟨tr2, sF2, r2⟩ := p
          simp only [Prod.mk.injEq] at heq
          obtain ⟨-, -, hr⟩ := heq
          subst hr
          obtain ⟨m, hm⟩ := ih store d.key none ((g, post) :: frames) tr2 sF2 sol hp
          rw [naiveChain] at hm
          cases hsub : naiveSolveGoal task m store d.key none with
          | none => rw [hsub] at hm; simp at hm
          | some rsub =>
            rw [hsub] at hm
            cases rsub with
            | error e => simp at hm
            | ok pp =>
              obtain ⟨storeD, v⟩ := pp
              have hm2 : naiveChain task m storeD g post frames = some (.ok sol) := hm
              refine ⟨m + 1, ?_⟩
              have hhead : naiveSolveGoal task (m + 1) store g s =
                  naiveSolveGoal task m storeD g post := by
                rw [naive_dep m hsolve, hsub]
              cases frames with
              | nil =>
                rw [naiveChain] at hm2 ⊢
                rw [hhead]
                exact hm2
              | cons f2 rest2 =>
                obtain ⟨g3, s3⟩ := f2
                rw [naiveChain] at hm2 ⊢
                rw [hhead]
                cases hsub2 : naiveSolveGoal task m storeD g post with
                | none => rw [hsub2] at hm2; simp at hm2
                | some rsub2 =>
                  rw [hsub2] at hm2
                  cases rsub2 with
                  | error e2 => exact hm2
                  | ok p3 =>
                    obtain ⟨store3, v3⟩ := p3
                    exact chain_mono task m (m + 1) (Nat.le_succ m) rest2 store3
                      g3 s3 (.ok sol) hm2
      | tail t =>
        by_cases hc : t ∈ stackGoals ⟨g, s, frames⟩
        · rw [runAux_halt n (tail_on_stack_halts_pair hsolve2 hc)] at hrun
          simp at hrun
        · rw [runAux_next n
            (tail_not_on_stack_continues task store ⟨g, s, frames⟩ t post hsolve2 hc)] at hrun
          rcases Option.map_eq_some'.mp hrun with ⟨p, hp, heq⟩
          obtain ⟨tr2, sF2, r2⟩ := p
          simp only [Prod.mk.injEq] at heq
          obtain ⟨-, -, hr⟩ := heq
          subst hr
          obtain ⟨m, hm⟩ := ih store t none frames tr2 sF2 sol hp
          refine ⟨m + 1, ?_⟩
          have hhead : naiveSolveGoal task (m + 1) store g s =
              naiveSolveGoal task m store t none := naive_tail m hsolve
          cases frames with
          | nil =>
            rw [naiveChain] at hm ⊢
            rw [hhead]
            exact hm
          | cons f2 rest2 =>
            obtain ⟨g3, s3⟩ := f2
            rw [naiveChain] at hm ⊢
            rw [hhead]
            cases hsub2 : naiveSolveGoal task m store t none with
            | none => rw [hsub2] at hm; simp at hm
            | some rsub2 =>
              rw [hsub2] at hm
              cases rsub2 with
              | error e2 => exact hm
              | ok p3 =>
                obtain ⟨store3, v3⟩ := p3
                exact chain_mono task m (m + 1) (Nat.le_succ m) rest2 store3
                  g3 s3 (.ok sol) hm

/-!
Trace bookkeeping: how the goal extractors act on appended chunks.
-/

theorem noneCallGoals_append (l1 l2 : List (Event K V E S)) :
    noneCallGoals (l1 ++ l2) = noneCallGoals l1 ++ noneCallGoals l2 :=
  List.filterMap_append l1 l2 _

theorem callGoals_append (l1 l2 : List (Event K V E S)) :
    callGoals (l1 ++ l2) = callGoals l1 ++ callGoals l2 :=
  List.filterMap_append l1 l2 _

@[simp]
theorem noneCallGoals_call_none (g : K) (r : Except (TaskInterrupt K E) V)
    (s2 : Option S) (l : List (Event K V E S)) :
    noneCallGoals (.call g none r s2 :: l) = g :: noneCallGoals l := rfl

@[simp]
theorem noneCallGoals_call_some (g : K) (v : S) (r : Except (TaskInterrupt K E) V)
    (s2 : Option S) (l : List (Event K V E S)) :
    noneCallGoals (.call g (some v) r s2 :: l) = noneCallGoals l := rfl

@[simp]
theorem noneCallGoals_write (g : K) (v : V) (l : List (Event K V E S)) :
    noneCallGoals (S := S) (E := E) (.write g v :: l) = noneCallGoals l := rfl

@[simp]
theorem noneCallGoals_nil : noneCallGoals ([] : List (Event K V E S)) = [] := rfl

@[simp]
theorem callGoals_call (g : K) (s : Option S) (r : Except (TaskInterrupt K E) V)
    (s2 : Option S) (l : List (Event K V E S)) :
    callGoals (.call g s r s2 :: l) = g :: callGoals l := rfl

@[simp]
theorem callGoals_write (g : K) (v : V) (l : List (Event K V E S)) :
    callGoals (S := S) (E := E) (.write g v :: l) = callGoals l := rfl

@[simp]
theorem callGoals_nil : callGoals ([] : List (Event K V E S)) = [] := rfl

theorem good_extend {past chunk : List (Event K V E S)} {c : K} {cs : Option S}
    (hnc : noneCallGoals chunk = match cs with | none => [c] | some _ => [])
    (hcg : callGoals chunk = [c])
    (h3 : (noneCallGoals past).Nodup)
    (h4 : ∀ g ∈ callGoals past, g ∈ noneCallGoals past)
    (h6a : cs = none → c ∉ noneCallGoals past)
    (h6b : cs ≠ none → c ∈ noneCallGoals past) :
    (noneCallGoals (past ++ chunk)).Nodup ∧
      ∀ g ∈ callGoals (past ++ chunk), g ∈ noneCallGoals (past ++ chunk) := by
  rw [noneCallGoals_append, callGoals_append, hnc, hcg]
  cases cs with
  | none =>
    have hc := h6a rfl
    refine ⟨?_, ?_⟩
    · rw [List.nodup_append]
      exact ⟨h3, List.nodup_singleton c, by simpa using hc⟩
    · intro g hg
      rcases List.mem_append.mp hg with hg | hg
      · exact List.mem_append_left _ (h4 g hg)
      · exact List.mem_append_right _ hg
  | some v =>
    have hc := h6b (by simp)
    refine ⟨by simpa using h3, ?_⟩
    intro g hg
    rcases List.mem_append.mp hg with hg | hg
    · exact List.mem_append_left _ (h4 g hg)
    · simp only [List.mem_singleton] at hg
      subst hg
      exact List.mem_append_left _ hc

/-- Invariant induction for the single-fresh-computation property: along
any completed run of a dependency-fresh, tail-free, state-populating
task, the goals called with empty state are pairwise distinct, and every
called goal has such an empty-state call. -/
theorem none_call_invariant [DecidableEq K] (task : Task K V E S)
    (hd : DepFresh task) (hnt : NoTail task) (hpop : Populating task) :
    ∀ (n : Nat) (store : Store K V) (st : ExecState K S) (past : List (Event K V E S))
      (tr : List (Event K V E S)) (sF : Store K V) (r : Except (DynamicError K E) V),
      StackInv st →
      (noneCallGoals past).Nodup →
      (∀ g ∈ callGoals past, g ∈ noneCallGoals past) →
      (∀ g ∈ noneCallGoals past, (store g).isSome = true ∨ g ∈ stackGoals st ∨ g = st.current) →
      (st.state = none → st.current ∉ noneCallGoals past) →
      (st.state ≠ none → st.current ∈ noneCallGoals past) →
      (∀ f ∈ st.stack, f.2 ≠ none ∧ f.1 ∈ noneCallGoals past) →
      runAux task n store st = some (tr, sF, r) →
      (noneCallGoals (past ++ tr)).Nodup ∧
        ∀ g ∈ callGoals (past ++ tr), g ∈ noneCallGoals (past ++ tr) := by
  intro n
  induction n with
  | zero => intro store st past tr sF r _ _ _ _ _ _ _ hrun; simp [runAux] at hrun
  | succ n ih =>
    intro store st past tr sF r h1 h3 h4 h5 h6a h6b h7 hrun
    rcases hsolve : task.solve st.current store st.state with ⟨res, post⟩
    cases res with
    | ok sol =>
      cases hstack : st.stack with
      | nil =>
        rw [runAux_halt n (step_ok_nil hsolve hstack)] at hrun
        simp only [Option.some.injEq, Prod.mk.injEq] at hrun
        obtain ⟨htr, -, -⟩ := hrun
        subst htr
        exact good_extend (by cases st.state <;> rfl) (by rfl) h3 h4 h6a h6b
      | cons f rest =>
        obtain ⟨g2, s2⟩ := f
        have hstep := step_ok_cons hsolve hstack
        rw [runAux_next n hstep] at hrun
        rcases Option.map_eq_some'.mp hrun with ⟨p, hp, heq⟩
        obtain ⟨tr2, sF2, r2⟩ := p
        simp only [Prod.mk.injEq] at heq
        obtain ⟨htr, -, -⟩ := heq
        subst htr
        have hf2 := h7 (g2, s2) (by rw [hstack]; exact List.mem_cons_self _ _)
        have hnc : noneCallGoals
            ([Event.call st.current st.state (.ok sol) post, .write st.current sol] : List (Event K V E S)) =
            match st.state with | none => [st.current] | some _ => [] := by
          cases st.state <;> rfl
        have hcg : callGoals
            ([Event.call st.current st.state (.ok sol) post, .write st.current sol] : List (Event K V E S)) =
            [st.current] := by
          cases st.state <;> rfl
        have hgood := good_extend hnc hcg h3 h4 h6a h6b
        have hmemnc : ∀ x, x ∈ noneCallGoals
            (past ++ ([Event.call st.current st.state (.ok sol) post, .write st.current sol] : List (Event K V E S))) ↔
            x ∈ noneCallGoals past ∨ (st.state = none ∧ x = st.current) := by
          intro x
          rw [noneCallGoals_append, hnc, List.mem_append]
          cases st.state <;> simp
        have hres := ih (Store.add store st.current sol) ⟨g2, s2, rest⟩
          (past ++ ([Event.call st.current st.state (.ok sol) post, .write st.current sol] : List (Event K V E S)))
          tr2 sF2 r2 (step_preserves_inv task store st _ _ _ h1 hstep)
          hgood.1 hgood.2
          (by
            intro g hg
            rcases (hmemnc g).mp hg with hg | ⟨-, hg⟩
            · rcases h5 g hg with hs | hs | hs
              · left
                unfold Store.add
                by_cases hgc : g = st.current <;> simp [hgc, hs]
              · unfold stackGoals at hs
                rw [hstack] at hs
                simp only [List.map_cons] at hs
                rcases List.mem_cons.mp hs with hs | hs
                · right; right; exact hs
                · right; left; exact hs
              · left
                unfold Store.add
                simp [hs]
            · left
              unfold Store.add
              simp [hg])
          (by intro hs2; exact absurd hs2 hf2.1)
          (by intro _; exact (hmemnc g2).mpr (.inl hf2.2))
          (by
            intro f hf
            have := h7 f (by rw [hstack]; exact List.mem_cons_of_mem _ hf)
            exact ⟨this.1, (hmemnc f.1).mpr (.inl this.2)⟩)
          hp
        rw [List.append_assoc] at hres
        exact hres
    | error i =>
      cases i with
      | error e =>
        rw [runAux_halt n (step_error hsolve)] at hrun
        simp only [Option.some.injEq, Prod.mk.injEq] at hrun
        obtain ⟨htr, -, -⟩ := hrun
        subst htr
        exact good_extend (by cases st.state <;> rfl) (by rfl) h3 h4 h6a h6b
      | dependency d =>
        have hpost : post ≠ none := by
          have := hpop st.current store st.state d (by rw [hsolve])
          rwa [hsolve] at this
        have hfresh : store d.key = none := by
          have := hd st.current store st.state d (by rw [hsolve])
          exact this
        by_cases hc : d.key ∈ st.current :: stackGoals st
        · rw [runAux_halt n (dep_on_stack_halts_pair hsolve hc)] at hrun
          simp only [Option.some.injEq, Prod.mk.injEq] at hrun
          obtain ⟨htr, -, -⟩ := hrun
          subst htr
          exact good_extend (by cases st.state <;> rfl) (by rfl) h3 h4 h6a h6b
        · have hstep := dep_not_on_stack_continues task store st d post hsolve hc
          rw [runAux_next n hstep] at hrun
          rcases Option.map_eq_some'.mp hrun with ⟨p, hp2, heq⟩
          obtain ⟨tr2, sF2, r2⟩ := p
          simp only [Prod.mk.injEq] at heq
          obtain ⟨htr, -, -⟩ := heq
          subst htr
          have hnc : noneCallGoals
              ([Event.call st.current st.state (.error (.dependency d)) post] : List (Event K V E S)) =
              match st.state with | none => [st.current] | some _ => [] := by
            cases st.state <;> rfl
          have hcg : callGoals
              ([Event.call st.current st.state (.error (.dependency d)) post] : List (Event K V E S)) =
              [st.current] := by
            cases st.state <;> rfl
          have hgood := good_extend hnc hcg h3 h4 h6a h6b
          have hmemnc : ∀ x, x ∈ noneCallGoals
              (past ++ ([Event.call st.current st.state (.error (.dependency d)) post] : List (Event K V E S))) ↔
              x ∈ noneCallGoals past ∨ (st.state = none ∧ x = st.current) := by
            intro x
            rw [noneCallGoals_append, hnc, List.mem_append]
            cases st.state <;> simp
          have hdnot : d.key ∉ noneCallGoals
              (past ++ ([Event.call st.current st.state (.error (.dependency d)) post] : List (Event K V E S))) := by
            intro hmem
            rcases (hmemnc d.key).mp hmem with hmem | ⟨-, hmem⟩
            · rcases h5 d.key hmem with hs | hs | hs
              · rw [hfresh] at hs; simp at hs
              · exact hc (List.mem_cons_of_mem _ hs)
              · exact hc (hs ▸ List.mem_cons_self _ _)
            · exact hc (hmem ▸ List.mem_cons_self _ _)
          have hres := ih store ⟨d.key, none, (st.current, post) :: st.stack⟩
            (past ++ ([Event.call st.current st.state (.error (.dependency d)) post] : List (Event K V E S)))
            tr2 sF2 r2 (step_preserves_inv task store st _ _ _ h1 hstep)
            hgood.1 hgood.2
            (by
              intro g hg
              rcases (hmemnc g).mp hg with hg | ⟨hsn, hg⟩
              · rcases h5 g hg with hs | hs | hs
                · left; exact hs
                · right; left
                  unfold stackGoals
                  simp only [List.map_cons]
                  exact List.mem_cons_of_mem _ hs
                · right; left
                  unfold stackGoals
                  simp only [List.map_cons]
                  exact hs ▸ List.mem_cons_self _ _
              · right; left
                unfold stackGoals
                simp only [List.map_cons]
                exact hg ▸ List.mem_cons_self _ _)
            (fun _ => hdnot)
            (fun hne => absurd rfl hne)
            (by
              intro f hf
              rcases List.mem_cons.mp hf with hf | hf
              · subst hf
                refine ⟨hpost, (hmemnc st.current).mpr ?_⟩
                cases hsst : st.state with
                | none => exact .inr ⟨rfl, rfl⟩
                | some v => exact .inl (h6b (by simp [hsst]))
              · have := h7 f hf
                exact ⟨this.1, (hmemnc f.1).mpr (.inl this.2)⟩)
            hp2
          rw [List.append_assoc] at hres
          exact hres
      | tail t =>
        exact absurd (by rw [hsolve]) (hnt st.current store st.state t)

/-- C2 counterexample: the stateless task (goal 1 needs goal 0) has an
acyclic goal graph and completes with `Ok 0`, yet goal 1 is passed to the
strategy with empty state twice — once initially and once more after its
dependency resolves, because the driver restarts it with the unchanged
(still empty) state it pushed. -/
theorem claim2_counterexample :
    runResult restartTask 5 (Store.empty Nat Nat) ⟨1, none, []⟩ = some (.ok 0) ∧
    (runTrace restartTask 5 (Store.empty Nat Nat) ⟨1, none, []⟩).map
        (fun tr => (noneCallGoals tr).count 1) = some 2 :=
  ⟨rfl, rfl⟩

/-- C2 amended: for every dependency-fresh task strategy that never uses
`TailRedirect` and always populates its resumable state before suspending
through `NeedsSubgoal`, during one completed run of `execute` each
distinct goal that is called at all is passed to the strategy with empty
(`None`) state exactly once: the empty-state calls carry pairwise
distinct goals, and every called goal has an empty-state call. -/
theorem claim2_single_fresh_call [DecidableEq K] (task : Task K V E S)
    (hd : DepFresh task) (hnt : NoTail task) (hpop : Populating task)
    (n : Nat) (store : Store K V) (g0 : K) (tr : List (Event K V E S))
    (hrun : runTrace task n store ⟨g0, none, []⟩ = some tr) :
    (noneCallGoals tr).Nodup ∧ ∀ g ∈ callGoals tr, g ∈ noneCallGoals tr := by
  unfold runTrace at hrun
  rcases Option.map_eq_some'.mp hrun with ⟨p, hp2, heq⟩
  obtain ⟨tr2, sF, r⟩ := p
  have htr : tr2 = tr := heq
  subst htr
  have hres := none_call_invariant task hd hnt hpop n store ⟨g0, none, []⟩ [] tr2 sF r
    (by simp [StackInv, stackGoals]) (by simp) (by simp) (by simp)
    (by simp) (fun hne => absurd rfl hne) (by simp) hp2
  simpa using hres

theorem statefulTask_depFresh : DepFresh statefulTask := by
  intro g store s d h
  by_cases hg : g = 0
  · simp [statefulTask, hg] at h
  · cases h0 : store 0 with
    | some v => simp [statefulTask, hg, h0] at h
    | none =>
      simp only [statefulTask, hg, if_false, h0] at h
      injection h with h2
      injection h2 with h3
      rw [← h3]
      exact h0

theorem statefulTask_noTail : NoTail statefulTask := by
  intro g store s t h
  by_cases hg : g = 0
  · simp [statefulTask, hg] at h
  · cases h0 : store 0 with
    | some v => simp [statefulTask, hg, h0] at h
    | none => simp [statefulTask, hg, h0] at h

theorem statefulTask_populating : Populating statefulTask := by
  intro g store s d h
  by_cases hg : g = 0
  · simp [statefulTask, hg] at h
  · cases h0 : store 0 with
    | some v => simp [statefulTask, hg, h0] at h
    | none => simp [statefulTask, hg, h0]

/-- C2 witness: the stateful two-goal task satisfies the three
hypotheses, completes, and its trace calls each of its two goals with
empty state exactly once. -/
theorem claim2_witness :
    (noneCallGoals
        ([.call 1 none (.error (.dependency ⟨0⟩)) (some ()),
          .call 0 none (.ok 1) none, .write 0 1,
          .call 1 (some ()) (.ok 2) (some ())] :
          List (Event Nat Nat Unit Unit))).Nodup ∧
    ∀ g ∈ callGoals
        ([.call 1 none (.error (.dependency ⟨0⟩)) (some ()),
          .call 0 none (.ok 1) none, .write 0 1,
          .call 1 (some ()) (.ok 2) (some ())] :
          List (Event Nat Nat Unit Unit)),
      g ∈ noneCallGoals
        ([.call 1 none (.error (.dependency ⟨0⟩)) (some ()),
          .call 0 none (.ok 1) none, .write 0 1,
          .call 1 (some ()) (.ok 2) (some ())] :
          List (Event Nat Nat Unit Unit)) :=
  claim2_single_fresh_call statefulTask statefulTask_depFresh statefulTask_noTail
    statefulTask_populating 5 (Store.empty Nat Nat) 1 _ (by rfl)

/-!
Store writes along a run: each goal is written at most once and only
right after its own `Done`, provided dependency requests and tail
redirects only ever target unsolved goals.
-/

theorem writePairs_append (l1 l2 : List (Event K V E S)) :
    writePairs (l1 ++ l2) = writePairs l1 ++ writePairs l2 :=
  List.filterMap_append l1 l2 _

theorem writeGoals_append (l1 l2 : List (Event K V E S)) :
    writeGoals (l1 ++ l2) = writeGoals l1 ++ writeGoals l2 := by
  unfold writeGoals
  rw [writePairs_append, List.map_append]

@[simp]
theorem writeGoals_call (g : K) (s : Option S) (r : Except (TaskInterrupt K E) V)
    (s2 : Option S) (l : List (Event K V E S)) :
    writeGoals (.call g s r s2 :: l) = writeGoals l := rfl

@[simp]
theorem writeGoals_write (g : K) (v : V) (l : List (Event K V E S)) :
    writeGoals (S := S) (E := E) (.write g v :: l) = g :: writeGoals l := rfl

@[simp]
theorem writeGoals_nil : writeGoals ([] : List (Event K V E S)) = [] := rfl

theorem Store.add_of_ne [DecidableEq K] (store : Store K V) (c : K) (sol : V) {g : K}
    (h : g ≠ c) : Store.add store c sol g = store g := by
  unfold Store.add
  simp [h]

theorem Store.add_self [DecidableEq K] (store : Store K V) (c : K) (sol : V) :
    Store.add store c sol c = some sol := by
  unfold Store.add
  simp

/-- Every completed run has a chunked trace: a write occurs only as the
immediate successor of the `Ok` invocation of the same goal with the same
solution. -/
theorem run_chunked [DecidableEq K] (task : Task K V E S) :
    ∀ (n : Nat) (store : Store K V) (st : ExecState K S) (tr : List (Event K V E S))
      (sF : Store K V) (r : Except (DynamicError K E) V),
      runAux task n store st = some (tr, sF, r) → Chunked tr := by
  intro n
  induction n with
  | zero => intro store st tr sF r hrun; simp [runAux] at hrun
  | succ n ih =>
    intro store st tr sF r hrun
    rcases hsolve : task.solve st.current store st.state with ⟨res, post⟩
    cases res with
    | ok sol =>
      cases hstack : st.stack with
      | nil =>
        rw [runAux_halt n (step_ok_nil hsolve hstack)] at hrun
        simp only [Option.some.injEq, Prod.mk.injEq] at hrun
        obtain ⟨htr, -, -⟩ := hrun
        subst htr
        exact .callOnly _ _ _ _ _ .nil
      | cons f rest =>
        obtain ⟨g2, s2⟩ := f
        rw [runAux_next n (step_ok_cons hsolve hstack)] at hrun
        rcases Option.map_eq_some'.mp hrun with ⟨p, hp, heq⟩
        obtain ⟨tr2, sF2, r2⟩ := p
        simp only [Prod.mk.injEq] at heq
        obtain ⟨htr, -, -⟩ := heq
        subst htr
        exact .callWrite _ _ _ _ _ (ih _ _ _ _ _ hp)
    | error i =>
      cases i with
      | error e =>
        rw [runAux_halt n (step_error hsolve)] at hrun
        simp only [Option.some.injEq, Prod.mk.injEq] at hrun
        obtain ⟨htr, -, -⟩ := hrun
        subst htr
        exact .callOnly _ _ _ _ _ .nil
      | dependency d =>
        by_cases hc : d.key ∈ st.current :: stackGoals st
        · rw [runAux_halt n (dep_on_stack_halts_pair hsolve hc)] at hrun
          simp only [Option.some.injEq, Prod.mk.injEq] at hrun
          obtain ⟨htr, -, -⟩ := hrun
          subst htr
          exact .callOnly _ _ _ _ _ .nil
        · rw [runAux_next n (dep_not_on_stack_continues task store st d post hsolve hc)] at hrun
          rcases Option.map_eq_some'.mp hrun with ⟨p, hp, heq⟩
          obtain ⟨tr2, sF2, r2⟩ := p
          simp only [Prod.mk.injEq] at heq
          obtain ⟨htr, -, -⟩ := heq
          subst htr
          exact .callOnly _ _ _ _ _ (ih _ _ _ _ _ hp)
      | tail t =>
        by_cases hc : t ∈ stackGoals st
        · rw [runAux_halt n (tail_on_stack_halts_pair hsolve hc)] at hrun
          simp only [Option.some.injEq, Prod.mk.injEq] at hrun
          obtain ⟨htr, -, -⟩ := hrun
          subst htr
          exact .callOnly _ _ _ _ _ .nil
        · rw [runAux_next n (tail_not_on_stack_continues task store st t post hsolve hc)] at hrun
          rcases Option.map_eq_some'.mp hrun with ⟨p, hp, heq⟩
          obtain ⟨tr2, sF2, r2⟩ := p
          simp only [Prod.mk.injEq] at heq
          obtain ⟨htr, -, -⟩ := heq
          subst htr
          exact .callOnly _ _ _ _ _ (ih _ _ _ _ _ hp)

/-- Invariant induction for single-write: with dependency requests and
tail redirects always naming unsolved goals, written goals stay pairwise
distinct and the store only grows. -/
theorem write_once_invariant [DecidableEq K] (task : Task K V E S)
    (hd : DepFresh task) (htf : TailFresh task) (store0 : Store K V) :
    ∀ (n : Nat) (store : Store K V) (st : ExecState K S) (past : List (Event K V E S))
      (tr : List (Event K V E S)) (sF : Store K V) (r : Except (DynamicError K E) V),
      StackInv st →
      (writeGoals past).Nodup →
      (∀ g ∈ writeGoals past, (store g).isSome = true) →
      store st.current = none →
      (∀ f ∈ st.stack, store f.1 = none) →
      (∀ g v, store0 g = some v → store g = some v) →
      runAux task n store st = some (tr, sF, r) →
      (writeGoals (past ++ tr)).Nodup ∧ ∀ g v, store0 g = some v → sF g = some v := by
  intro n
  induction n with
  | zero => intro store st past tr sF r _ _ _ _ _ _ hrun; simp [runAux] at hrun
  | succ n ih =>
    intro store st past tr sF r h1 j1 j2 j3 j4 j5 hrun
    rcases hsolve : task.solve st.current store st.state with ⟨res, post⟩
    cases res with
    | ok sol =>
      cases hstack : st.stack with
      | nil =>
        rw [runAux_halt n (step_ok_nil hsolve hstack)] at hrun
        simp only [Option.some.injEq, Prod.mk.injEq] at hrun
        obtain ⟨htr, hsF, -⟩ := hrun
        subst htr
        subst hsF
        rw [writeGoals_append]
        exact ⟨by simpa using j1, j5⟩
      | cons f rest =>
        obtain ⟨g2, s2⟩ := f
        have hstep := step_ok_cons hsolve hstack
        rw [runAux_next n hstep] at hrun
        rcases Option.map_eq_some'.mp hrun with ⟨p, hp, heq⟩
        obtain ⟨tr2, sF2, r2⟩ := p
        simp only [Prod.mk.injEq] at heq
        obtain ⟨htr, hsF, -⟩ := heq
        subst htr
        subst hsF
        have hg2mem : g2 ∈ stackGoals st := by
          unfold stackGoals
          rw [hstack]
          exact List.mem_cons_self _ _
        have hcurne : st.current ∉ stackGoals st := StackInv.current_notMem h1
        have hres := ih (Store.add store st.current sol) ⟨g2, s2, rest⟩
          (past ++ [Event.call st.current st.state (.ok sol) post,
            .write st.current sol])
          tr2 sF2 r2 (step_preserves_inv task store st _ _ _ h1 hstep)
          (by
            rw [writeGoals_append]
            simp only [writeGoals_call, writeGoals_write, writeGoals_nil]
            rw [List.nodup_append]
            refine ⟨j1, List.nodup_singleton _, ?_⟩
            intro x hx
            simp only [List.mem_singleton]
            intro he
            rw [he] at hx
            have := j2 st.current hx
            rw [j3] at this
            simp at this)
          (by
            intro g hg
            rw [writeGoals_append] at hg
            simp only [writeGoals_call, writeGoals_write, writeGoals_nil] at hg
            rcases List.mem_append.mp hg with hg | hg
            · by_cases hgc : g = st.current
              · subst hgc
                rw [Store.add_self]
                rfl
              · rw [Store.add_of_ne store st.current sol hgc]
                exact j2 g hg
            · simp only [List.mem_singleton] at hg
              subst hg
              rw [Store.add_self]
              rfl)
          (by
            have hne : g2 ≠ st.current := fun he => hcurne (he ▸ hg2mem)
            rw [Store.add_of_ne store st.current sol hne]
            exact j4 (g2, s2) (by rw [hstack]; exact List.mem_cons_self _ _))
          (by
            intro f hf
            have hfs : f ∈ st.stack := by rw [hstack]; exact List.mem_cons_of_mem _ hf
            have hne : f.1 ≠ st.current := fun he => hcurne (he ▸ mem_stackGoals hfs)
            rw [Store.add_of_ne store st.current sol hne]
            exact j4 f hfs)
          (by
            intro g v hg
            have := j5 g v hg
            by_cases hgc : g = st.current
            · subst hgc
              rw [j3] at this
              simp at this
            · rw [Store.add_of_ne store st.current sol hgc]
              exact this)
          hp
        rw [List.append_assoc] at hres
        exact hres
    | error i =>
      cases i with
      | error e =>
        rw [runAux_halt n (step_error hsolve)] at hrun
        simp only [Option.some.injEq, Prod.mk.injEq] at hrun
        obtain ⟨htr, hsF, -⟩ := hrun
        subst htr
        subst hsF
        rw [writeGoals_append]
        exact ⟨by simpa using j1, j5⟩
      | dependency d =>
        by_cases hc : d.key ∈ st.current :: stackGoals st
        · rw [runAux_halt n (dep_on_stack_halts_pair hsolve hc)] at hrun
          simp only [Option.some.injEq, Prod.mk.injEq] at hrun
          obtain ⟨htr, hsF, -⟩ := hrun
          subst htr
          subst hsF
          rw [writeGoals_append]
          exact ⟨by simpa using j1, j5⟩
        · have hstep := dep_not_on_stack_continues task store st d post hsolve hc
          rw [runAux_next n hstep] at hrun
          rcases Option.map_eq_some'.mp hrun with ⟨p, hp, heq⟩
          obtain ⟨tr2, sF2, r2⟩ := p
          simp only [Prod.mk.injEq] at heq
          obtain ⟨htr, hsF, -⟩ := heq
          subst htr
          subst hsF
          have hfresh : store d.key = none := hd st.current store st.state d (by rw [hsolve])
          have hres := ih store ⟨d.key, none, (st.current, post) :: st.stack⟩
            (past ++ [Event.call st.current st.state (.error (.dependency d)) post])
            tr2 sF2 r2 (step_preserves_inv task store st _ _ _ h1 hstep)
            (by simpa [writeGoals_append] using j1)
            (by
              intro g hg
              rw [writeGoals_append] at hg
              simp only [writeGoals_call, writeGoals_nil, List.append_nil] at hg
              exact j2 g hg)
            hfresh
            (by
              intro f hf
              rcases List.mem_cons.mp hf with hf | hf
              · subst hf; exact j3
              · exact j4 f hf)
            j5
            hp
          rw [List.append_assoc] at hres
          exact hres
      | tail t =>
        by_cases hc : t ∈ stackGoals st
        · rw [runAux_halt n (tail_on_stack_halts_pair hsolve hc)] at hrun
          simp only [Option.some.injEq, Prod.mk.injEq] at hrun
          obtain ⟨htr, hsF, -⟩ := hrun
          subst htr
          subst hsF
          rw [writeGoals_append]
          exact ⟨by simpa using j1, j5⟩
        · have hstep := tail_not_on_stack_continues task store st t post hsolve hc
          rw [runAux_next n hstep] at hrun
          rcases Option.map_eq_some'.mp hrun with ⟨p, hp, heq⟩
          obtain ⟨tr2, sF2, r2⟩ := p
          simp only [Prod.mk.injEq] at heq
          obtain ⟨htr, hsF, -⟩ := heq
          subst htr
          subst hsF
          have hfresh : store t = none := htf st.current store st.state t (by rw [hsolve])
          have hres := ih store ⟨t, none, st.stack⟩
            (past ++ [Event.call st.current st.state (.error (.tail t)) post])
            tr2 sF2 r2 (step_preserves_inv task store st _ _ _ h1 hstep)
            (by simpa [writeGoals_append] using j1)
            (by
              intro g hg
              rw [writeGoals_append] at hg
              simp only [writeGoals_call, writeGoals_nil, List.append_nil] at hg
              exact j2 g hg)
            hfresh
            j4
            j5
            hp
          rw [List.append_assoc] at hres
          exact hres

/-- C5 counterexample: with the concrete task whose goal 2 tail-redirects
to the already-solved goal 3, a completed run writes goal 3 twice — first
with solution 7, then with solution 8, overwriting the first — so a goal
is not written at most once and a stored solution is not preserved. -/
theorem claim5_counterexample :
    runWrites tailOverwriteTask 6 (Store.empty Nat Nat) ⟨1, none, []⟩ =
      some [(3, 7), (3, 8)] ∧
    runResult tailOverwriteTask 6 (Store.empty Nat Nat) ⟨1, none, []⟩ =
      some (.ok 107) ∧
    ¬ (([(3, 7), (3, 8)] : List (Nat × Nat)).map Prod.fst).Nodup :=
  ⟨rfl, rfl, by decide⟩

/-- C5 amended: for every dependency-fresh task whose tail redirects also
only target goals missing from the store, and for a root goal not already
solved, a completed run writes pairwise distinct goals, every write
immediately follows the `Done` of its own goal, and a solution present in
the store is still present, unchanged, in the store at the end of the
run. -/
theorem claim5_write_once [DecidableEq K] (task : Task K V E S)
    (hd : DepFresh task) (htf : TailFresh task) (n : Nat) (store : Store K V) (g0 : K)
    (tr : List (Event K V E S)) (sF : Store K V) (r : Except (DynamicError K E) V)
    (hg0 : store g0 = none)
    (hrun : runAux task n store ⟨g0, none, []⟩ = some (tr, sF, r)) :
    (writeGoals tr).Nodup ∧ Chunked tr ∧ ∀ g v, store g = some v → sF g = some v := by
  have hres := write_once_invariant task hd htf store n store ⟨g0, none, []⟩ [] tr sF r
    (by simp [StackInv, stackGoals]) (by simp) (by simp) hg0 (by simp)
    (fun g v h => h) hrun
  exact ⟨by simpa using hres.1, run_chunked task n store ⟨g0, none, []⟩ tr sF r hrun,
    hres.2⟩

theorem statefulTask_tailFresh : TailFresh statefulTask := by
  intro g store s t h
  exact absurd h (statefulTask_noTail g store s t)

/-- C5 witness: the stateful two-goal run writes only goal 0, its trace
is chunked, and the (empty) initial store is preserved. -/
theorem claim5_witness :
    (writeGoals
        ([.call 1 none (.error (.dependency ⟨0⟩)) (some ()),
          .call 0 none (.ok 1) none, .write 0 1,
          .call 1 (some ()) (.ok 2) (some ())] :
          List (Event Nat Nat Unit Unit))).Nodup ∧
    Chunked
        ([.call 1 none (.error (.dependency ⟨0⟩)) (some ()),
          .call 0 none (.ok 1) none, .write 0 1,
          .call 1 (some ()) (.ok 2) (some ())] :
          List (Event Nat Nat Unit Unit)) ∧
    ∀ g v, Store.empty Nat Nat g = some v →
      Store.add (Store.empty Nat Nat) 0 1 g = some v :=
  claim5_write_once statefulTask statefulTask_depFresh statefulTask_tailFresh 5
    (Store.empty Nat Nat) 1 _ (Store.add (Store.empty Nat Nat) 0 1) (.ok 2)
    (by rfl) (by rfl)

/-- C1: whenever `execute` returns `Ok` with a solution for the root
goal, the direct recursive memoized evaluation of the same strategy on
the same initial store computes, for some recursion fuel, exactly the
same solution for the root goal. -/
theorem claim1_execute_matches_naive [DecidableEq K] (task : Task K V E S)
    (goal : K) (store : Store K V) (fuel : Nat) (sol : V)
    (hrun : execute task goal store fuel = some (.ok sol)) :
    ∃ (m : Nat) (store2 : Store K V),
      naiveSolveGoal task m store goal none = some (.ok (store2, sol)) := by
  unfold execute at hrun
  rcases Option.map_eq_some'.mp hrun with ⟨p, hp, heq⟩
  obtain ⟨tr, sF, r⟩ := p
  have hr : r = .ok sol := heq
  subst hr
  obtain ⟨m, hm⟩ := run_ok_naiveChain task fuel store goal none [] tr sF sol hp
  rw [naiveChain] at hm
  rcases Option.map_eq_some'.mp hm with ⟨rn, hrn, hmap⟩
  cases rn with
  | error e => simp [Except.map] at hmap
  | ok p2 =>
    obtain ⟨store2, v⟩ := p2
    have hv : v = sol := by simpa [Except.map] using hmap
    exact ⟨m, store2, hv ▸ hrn⟩

/-- C1 witness: the stateful two-goal task; the driver returns `Ok 2` and
the naive recursive evaluation computes the same solution 2. -/
theorem claim1_witness :
    ∃ (m : Nat) (store2 : Store Nat Nat),
      naiveSolveGoal statefulTask m (Store.empty Nat Nat) 1 none =
        some (.ok (store2, 2)) :=
  claim1_execute_matches_naive statefulTask 1 (Store.empty Nat Nat) 3 2 (by rfl)

end DynLib
